import Mathlib

/-!
# Shallow embedding of `q_learn_mountain_car.py`

This file embeds the core of the repository's single source file,
`q_learn_mountain_car.py`, into Lean 4 and proves properties of it.

Modelling conventions:
* Real numbers (numpy floats) are modelled as `ℚ`, so all arithmetic is exact
  and all definitions are executable.
* The environment (`MountainCarWithResetEnv`), the state normalizer
  (`DataTransformer`) and the radial-basis feature extractor
  (`RadialBasisFunctionExtractor`) are external collaborators that are not part
  of the repository's source file; they are modelled abstractly:
  - the state space is an arbitrary type `S`;
  - `env.step` is an arbitrary deterministic function
    `S → Nat → S × ℚ × Bool` returning `(next_state, reward, done)`;
  - `Solver.get_features` (normalization followed by RBF encoding, a pure
    function of the state) is an arbitrary function `S → List ℚ` stored as a
    field of the solver.
* `np.random.uniform()` and `np.random.choice(n)` inside the episode loop are
  modelled by two explicit streams indexed by the step counter: `unifs : Nat → ℚ`
  (each value meant to lie in `[0,1)`) and `picks : Nat → Nat`.
* `np.mean` of a Python list is `none` on the empty list (numpy returns NaN
  there) and `some (sum / length)` otherwise.
* The `while True` loop of `run_episode` is embedded as a fuel-indexed
  recursion that returns `none` when the fuel runs out before the loop's own
  exit condition `done or step == max_steps` fires.
-/

namespace QLearnMC

/-- `np.dot` of two equal-length 1-D arrays (pointwise product, summed). -/
def dotList (a b : List ℚ) : ℚ := (List.zipWith (· * ·) a b).sum

/-- `np.argmax` on a 1-D array: the index of the first maximal entry
(numpy documents that ties are broken by the first occurrence).
On the empty array numpy raises; we return `0`, and every theorem that
uses this function assumes the array is nonempty. -/
def argmaxList : List ℚ → Nat
  | [] => 0
  | [_] => 0
  | x :: y :: t =>
    let r := argmaxList (y :: t)
    if (y :: t).getD r 0 ≤ x then 0 else r + 1

/-- The `Solver` class of `q_learn_mountain_car.py`.

Fields mirror the Python attributes used by the value-approximation methods:
`self.theta` (flat weight vector of length `actions * number_of_features`),
`self.gamma`, `self.learning_rate`, `self._actions` (here `actions`),
`self.number_of_features`, and the feature pipeline
`self.get_features` (normalization + RBF encoding), which is external code
and hence an abstract function here. -/
structure Solver (S : Type) where
  actions : Nat
  number_of_features : Nat
  theta : List ℚ
  gamma : ℚ
  learning_rate : ℚ
  get_features : S → List ℚ

namespace Solver

variable {S : Type}

/-- `Solver.get_q_val`: dot product of `features` with the weight block
`theta[action*F : (1+action)*F]` (`F = self.number_of_features`). -/
def get_q_val (sol : Solver S) (features : List ℚ) (action : Nat) : ℚ :=
  dotList features
    ((sol.theta.drop (action * sol.number_of_features)).take sol.number_of_features)

/-- `Solver.get_all_q_vals`: the vector of `get_q_val features a` for
`a = 0, …, self._actions - 1`. -/
def get_all_q_vals (sol : Solver S) (features : List ℚ) : List ℚ :=
  (List.range sol.actions).map (fun a => sol.get_q_val features a)

/-- `Solver.get_max_action`: `np.argmax` of `get_all_q_vals (get_features state)`. -/
def get_max_action (sol : Solver S) (state : S) : Nat :=
  argmaxList (sol.get_all_q_vals (sol.get_features state))

/-- `Solver.get_state_action_features`: a zero vector of length
`len(state_features) * self._actions` whose block
`[action*L : (1+action)*L]` (`L = len(state_features)`) is overwritten
by the state's feature vector. -/
def get_state_action_features (sol : Solver S) (state : S) (action : Nat) : List ℚ :=
  let φ := sol.get_features state
  (List.range (φ.length * sol.actions)).map (fun i =>
    if action * φ.length ≤ i ∧ i < (action + 1) * φ.length
    then φ.getD (i - action * φ.length) 0 else 0)

/-- `Solver.update_theta`: the temporal-difference update.  Returns the new
solver (with `self.theta` replaced, all other fields unchanged) together with
the returned `bellman_error`. -/
def update_theta (sol : Solver S) (state : S) (action : Nat) (reward : ℚ)
    (next_state : S) (done : Bool) : Solver S × ℚ :=
  let alpha := sol.learning_rate
  let phi_s := sol.get_features state
  let phi_s_prime := sol.get_features next_state
  let Q_s_a := sol.get_q_val phi_s action
  let phi_s_a := sol.get_state_action_features state action
  let Q_s_a_estimated :=
    if done then reward
    else
      let a_prime := sol.get_max_action next_state
      reward + sol.gamma * sol.get_q_val phi_s_prime a_prime
  let bellman_error := Q_s_a_estimated - Q_s_a
  let gradient := phi_s_a
  let theta := List.zipWith (fun t g => t + alpha * bellman_error * g) sol.theta gradient
  ({ sol with theta := theta }, bellman_error)

end Solver

variable {S : Type}

/-- `modify_reward`: subtract 1; if the result is exactly 0, replace by 100. -/
def modify_reward (reward : ℚ) : ℚ :=
  let reward1 := reward - 1
  if reward1 = 0 then 100 else reward1

/-- `np.mean` of a Python list: `none` for the empty list (numpy yields NaN
with a warning there), otherwise the arithmetic mean. -/
def meanOpt (l : List ℚ) : Option ℚ :=
  if l.isEmpty then none else some (l.sum / l.length)

/-- The mutable locals of `run_episode`'s `while True` loop, plus the action
trace (the sequence of actions passed to `env.step`, recorded for the
determinism property). `step` counts completed loop iterations, i.e.
environment steps. -/
structure EpState (S : Type) where
  sol : Solver S
  state : S
  episode_gain : ℚ
  deltas : List ℚ
  actionsTaken : List Nat
  step : Nat

/-- The action selection at the top of the loop body of `run_episode`:
`np.random.choice(env.action_space.n)` when `epsilon` was supplied and the
drawn uniform is below it, else `solver.get_max_action(state)`.  The RNG draw
for iteration `st.step` is `unifs st.step`; the random choice is modelled as
`picks st.step % n` (an arbitrary index in `[0, n)`). -/
def chooseAction (epsilon : Option ℚ) (unifs : Nat → ℚ) (picks : Nat → Nat)
    (st : EpState S) : Nat :=
  match epsilon with
  | some ε =>
    if unifs st.step < ε then picks st.step % st.sol.actions
    else st.sol.get_max_action st.state
  | none => st.sol.get_max_action st.state

/-- One iteration of the loop body of `run_episode`, up to (but excluding) the
exit test: choose the action, step the environment
(`env state action = (next_state, reward1, done)` models `env.step(action)`
for a deterministic environment whose internal state is `state`), shape the
reward, increment `step`, accumulate the gain, and — in training mode —
perform `update_theta` and record the returned TD error.  Returns the updated
loop locals together with the environment's `done` flag. -/
def epStep (env : S → Nat → S × ℚ × Bool) (is_train : Bool) (epsilon : Option ℚ)
    (unifs : Nat → ℚ) (picks : Nat → Nat) (st : EpState S) : EpState S × Bool :=
  let action := chooseAction epsilon unifs picks st
  let stepRes := env st.state action
  let next_state := stepRes.1
  let reward1 := stepRes.2.1
  let done := stepRes.2.2
  let reward := modify_reward reward1
  let updated :=
    if is_train then
      let u := st.sol.update_theta st.state action reward next_state done
      (u.1, st.deltas ++ [u.2])
    else (st.sol, st.deltas)
  ({ sol := updated.1, state := next_state, episode_gain := st.episode_gain + reward,
     deltas := updated.2, actionsTaken := st.actionsTaken ++ [action],
     step := st.step + 1 }, done)

/-- One-episode loop of `run_episode` (`while True: ...`), embedded as a
fuel-indexed recursion: run one loop body, exit returning the final locals
when `done or step == max_steps`, else iterate.  `none` means the fuel ran
out before the loop's own exit condition fired. -/
def runLoop (env : S → Nat → S × ℚ × Bool) (is_train : Bool) (epsilon : Option ℚ)
    (max_steps : Nat) (unifs : Nat → ℚ) (picks : Nat → Nat) :
    Nat → EpState S → Option (EpState S)
  | 0, _ => none
  | fuel + 1, st =>
    let r := epStep env is_train epsilon unifs picks st
    if r.2 || r.1.step == max_steps then some r.1
    else runLoop env is_train epsilon max_steps unifs picks fuel r.1

/-- `run_episode`: starting from the given start state (the source computes it
from the mode and the RNG before the loop; here it is a parameter), run the
loop with fuel `max_steps` and return `(episode_gain, np.mean(deltas))`.
`none` models non-termination of the `while True` loop within the fuel. -/
def run_episode (env : S → Nat → S × ℚ × Bool) (sol : Solver S) (is_train : Bool)
    (epsilon : Option ℚ) (max_steps : Nat) (start_state : S)
    (unifs : Nat → ℚ) (picks : Nat → Nat) : Option (ℚ × Option ℚ) :=
  (runLoop env is_train epsilon max_steps unifs picks max_steps
      { sol := sol, state := start_state, episode_gain := 0, deltas := [],
        actionsTaken := [], step := 0 }).map
    (fun st => (st.episode_gain, meanOpt st.deltas))

/-- The success-rate computation of the `__main__` evaluation block
(lines 174–180): `failures = np.sum(test_gains.count(-200))`,
`successes = 10 - failures`, `SR = np.sum(successes) / 10`. -/
def evalBlockSR (test_gains : List ℚ) : ℚ :=
  let failures : Nat := test_gains.count (-200)
  let successes : ℚ := 10 - (failures : ℚ)
  successes / 10

/-! ### Concrete instances (used to evaluate the theorems on closed inputs)

A two-action solver over the two-point state space `Bool`, with two features
per action, together with small deterministic environments and RNG streams. -/

/-- A concrete solver: 2 actions, 2 features, `theta = [1, 2, 3, 4]`. -/
def solEx : Solver Bool :=
  { actions := 2, number_of_features := 2, theta := [1, 2, 3, 4], gamma := 1/2,
    learning_rate := 1/10, get_features := fun b => if b then [1, 1] else [2, 0] }

/-- A deterministic environment that flips the state and signals terminal
exactly when stepping from state `true`. -/
def envEx : Bool → Nat → Bool × ℚ × Bool := fun s _ => (!s, 0, s)

/-- A deterministic environment that never signals terminal. -/
def envFree : Bool → Nat → Bool × ℚ × Bool := fun s _ => (s, 0, false)

/-- A constant-zero uniform-draw stream. -/
def unifs0 : Nat → ℚ := fun _ => 0

/-- A constant-zero choice stream. -/
def picks0 : Nat → Nat := fun _ => 0

/-- A second, different uniform-draw stream. -/
def unifs1 : Nat → ℚ := fun n => (n : ℚ) / 2

/-- A second, different choice stream. -/
def picks1 : Nat → Nat := fun n => n + 1

/-- Initial loop locals for an episode of `solEx` started at state `true`. -/
def stEx : EpState Bool :=
  { sol := solEx, state := true, episode_gain := 0, deltas := [],
    actionsTaken := [], step := 0 }

/-- Ten synthetic evaluation returns, of which exactly 3 equal the failure
return `-200`. -/
def gainsEx : List ℚ := [-200, -200, -200, 1, 2, 3, 4, 5, 6, 7]

/-! ## General lemmas -/

/-- `getD` through `zipWith`, for indices within both lists. -/
theorem getD_zipWith (f : ℚ → ℚ → ℚ) (l1 l2 : List ℚ) (i : Nat)
    (h1 : i < l1.length) (h2 : i < l2.length) :
    (List.zipWith f l1 l2).getD i 0 = f (l1.getD i 0) (l2.getD i 0) := by
  have hz : i < (List.zipWith f l1 l2).length := by
    rw [List.length_zipWith]; omega
  rw [List.getD_eq_getElem _ _ hz, List.getD_eq_getElem _ _ h1,
    List.getD_eq_getElem _ _ h2]
  exact List.getElem_zipWith

/-- Filtering out the occurrences of `a` and counting them partitions a list. -/
theorem length_filter_ne_add_count (a : ℚ) (l : List ℚ) :
    (l.filter (fun g => !(g == a))).length + l.count a = l.length := by
  induction l with
  | nil => simp
  | cons x t ih =>
    by_cases hx : x = a
    · subst hx
      simp only [List.count_cons, List.filter_cons, List.length_cons]
      simp only [beq_self_eq_true, Bool.not_true, if_true, if_false,
        Bool.false_eq_true]
      omega
    · have hb : (x == a) = false := by simpa using hx
      simp only [List.count_cons, List.filter_cons, List.length_cons, hb,
        Bool.not_false, if_true, if_false, Bool.false_eq_true]
      omega

/-- `dotList` on a cons pair. -/
theorem dotList_cons (x y : ℚ) (xs ys : List ℚ) :
    dotList (x :: xs) (y :: ys) = x * y + dotList xs ys := by
  simp [dotList]

/-- `dotList` distributes over an elementwise `t + c * g` combination of two
equal-length lists. -/
theorem dotList_zipWith_add_mul (c : ℚ) :
    ∀ (φ u v : List ℚ), u.length = v.length →
      dotList φ (List.zipWith (fun t g => t + c * g) u v) =
        dotList φ u + c * dotList φ v
  | [], u, v, _ => by simp [dotList]
  | x :: φ, [], v, h => by
    have hv : v = [] := by cases v <;> simp_all
    subst hv; simp [dotList]
  | x :: φ, u0 :: u, v0 :: v, h => by
    have ih := dotList_zipWith_add_mul c φ u v (by simpa using h)
    simp only [List.zipWith_cons_cons, dotList_cons, ih]
    ring

/-! ## Properties of `argmaxList` (the embedding of `np.argmax`) -/

/-- `argmaxList` returns a valid index on a nonempty list. -/
theorem argmaxList_lt_length : ∀ (l : List ℚ), l ≠ [] → argmaxList l < l.length
  | [], h => absurd rfl h
  | [_], _ => by simp [argmaxList]
  | x :: y :: t, _ => by
    have ih := argmaxList_lt_length (y :: t) (by simp)
    simp only [argmaxList, List.length_cons] at ih ⊢
    split
    · omega
    · omega

/-- Every entry is at most the entry at `argmaxList`. -/
theorem getD_le_argmaxList : ∀ (l : List ℚ) (j : Nat), j < l.length →
    l.getD j 0 ≤ l.getD (argmaxList l) 0
  | [], j, hj => by simp at hj
  | [x], j, hj => by
    have : j = 0 := by simpa using hj
    subst this; simp [argmaxList]
  | x :: y :: t, j, hj => by
    have ih := fun j hj => getD_le_argmaxList (y :: t) j hj
    by_cases h : (y :: t).getD (argmaxList (y :: t)) 0 ≤ x
    · simp only [argmaxList, if_pos h]
      cases j with
      | zero => simp
      | succ j' =>
        have hj' : j' < (y :: t).length := by simpa using hj
        calc (x :: y :: t).getD (j' + 1) 0 = (y :: t).getD j' 0 := rfl
          _ ≤ (y :: t).getD (argmaxList (y :: t)) 0 := ih j' hj'
          _ ≤ x := h
    · simp only [argmaxList, if_neg h]
      push_neg at h
      cases j with
      | zero => exact le_of_lt h
      | succ j' =>
        have hj' : j' < (y :: t).length := by simpa using hj
        exact ih j' hj'

/-- Entries strictly before `argmaxList` are strictly below the maximum:
ties are broken by the lowest index (first-max convention). -/
theorem getD_lt_of_lt_argmaxList : ∀ (l : List ℚ) (j : Nat), j < argmaxList l →
    l.getD j 0 < l.getD (argmaxList l) 0
  | [], j, hj => by simp [argmaxList] at hj
  | [x], j, hj => by simp [argmaxList] at hj
  | x :: y :: t, j, hj => by
    have ih := fun j hj => getD_lt_of_lt_argmaxList (y :: t) j hj
    by_cases h : (y :: t).getD (argmaxList (y :: t)) 0 ≤ x
    · rw [argmaxList, if_pos h] at hj
      omega
    · rw [argmaxList, if_neg h] at hj ⊢
      push_neg at h
      cases j with
      | zero => exact h
      | succ j' => exact ih j' (by omega)

/-! ## Properties of the `Solver` operations -/

/-- `get_all_q_vals` has one entry per action. -/
theorem length_get_all_q_vals (sol : Solver S) (φ : List ℚ) :
    (sol.get_all_q_vals φ).length = sol.actions := by
  simp [Solver.get_all_q_vals]

/-- Entry `b` of `get_all_q_vals` is `get_q_val φ b`. -/
theorem getD_get_all_q_vals (sol : Solver S) (φ : List ℚ) (b : Nat)
    (hb : b < sol.actions) :
    (sol.get_all_q_vals φ).getD b 0 = sol.get_q_val φ b := by
  have h : b < (sol.get_all_q_vals φ).length := by
    rw [length_get_all_q_vals]; exact hb
  rw [List.getD_eq_getElem _ _ h]
  simp [Solver.get_all_q_vals]

/-- `get_state_action_features` has length `len(features) * actions`. -/
theorem length_get_state_action_features (sol : Solver S) (s : S) (a : Nat) :
    (sol.get_state_action_features s a).length =
      (sol.get_features s).length * sol.actions := by
  simp [Solver.get_state_action_features]

/-- Entry `i` of `get_state_action_features`: the feature vector inside block
`a`, zero everywhere else. -/
theorem getD_get_state_action_features (sol : Solver S) (s : S) (a i : Nat)
    (hi : i < (sol.get_features s).length * sol.actions) :
    (sol.get_state_action_features s a).getD i 0 =
      if a * (sol.get_features s).length ≤ i ∧
          i < (a + 1) * (sol.get_features s).length
      then (sol.get_features s).getD (i - a * (sol.get_features s).length) 0
      else 0 := by
  have h : i < (sol.get_state_action_features s a).length := by
    rw [length_get_state_action_features]; exact hi
  rw [List.getD_eq_getElem _ _ h]
  simp [Solver.get_state_action_features]

/-- The weight block of the taken action inside `get_state_action_features`
is exactly the feature vector. -/
theorem slice_get_state_action_features (sol : Solver S) (s : S) (a : Nat)
    (ha : a < sol.actions)
    (hF : (sol.get_features s).length = sol.number_of_features) :
    ((sol.get_state_action_features s a).drop (a * sol.number_of_features)).take
      sol.number_of_features = sol.get_features s := by
  have hmul : (a + 1) * sol.number_of_features ≤
      sol.number_of_features * sol.actions :=
    le_of_le_of_eq (Nat.mul_le_mul_right _ (Nat.succ_le_of_lt ha))
      (Nat.mul_comm _ _)
  have hlen : (sol.get_state_action_features s a).length =
      sol.number_of_features * sol.actions := by
    rw [length_get_state_action_features, hF]
  apply List.ext_getElem
  · simp only [List.length_take, List.length_drop, hlen, hF]
    have : a * sol.number_of_features + sol.number_of_features ≤
        sol.number_of_features * sol.actions := by
      calc a * sol.number_of_features + sol.number_of_features
          = (a + 1) * sol.number_of_features := by ring
        _ ≤ sol.number_of_features * sol.actions := hmul
    omega
  · intro i h1 h2
    rw [List.getElem_take, List.getElem_drop]
    have hidx : a * sol.number_of_features + i <
        (sol.get_state_action_features s a).length := by
      simp only [List.length_take, List.length_drop] at h1
      omega
    have hi2 : i < sol.number_of_features := by
      simp only [List.length_take, List.length_drop] at h1
      omega
    rw [← List.getD_eq_getElem _ (0 : ℚ) hidx,
      getD_get_state_action_features sol s a _ (by rw [hF]; omega)]
    have hcond : a * (sol.get_features s).length ≤
          a * sol.number_of_features + i ∧
        a * sol.number_of_features + i < (a + 1) * (sol.get_features s).length := by
      rw [hF]
      constructor
      · omega
      · have : (a + 1) * sol.number_of_features =
            a * sol.number_of_features + sol.number_of_features := by ring
        omega
    rw [if_pos hcond, hF]
    have : a * sol.number_of_features + i - a * sol.number_of_features = i := by
      omega
    rw [this, List.getD_eq_getElem _ _ (by rw [hF]; exact hi2)]

/-! ## Claim theorems -/

/-- C3: `modify_reward` maps raw reward 1 to 100 and every other raw reward
`r` to `r - 1`; in particular raw 0 to -1 and raw -1 to -2. -/
theorem modify_reward_spec :
    (∀ r : ℚ, modify_reward r = if r = 1 then 100 else r - 1) ∧
    modify_reward 0 = -1 ∧ modify_reward (-1) = -2 := by
  refine ⟨fun r => ?_, by norm_num [modify_reward], by norm_num [modify_reward]⟩
  simp only [modify_reward]
  by_cases h : r = 1
  · subst h; norm_num
  · rw [if_neg (fun h0 => h (by linarith)), if_neg h]

/-- C4: the `__main__` evaluation-block success rate equals the fraction of
the 10 evaluation returns that are not the failure return `-200`. -/
theorem evaluation_block_success_rate (gains : List ℚ)
    (h : gains.length = 10) :
    evalBlockSR gains =
      ((gains.filter (fun g => !(g == -200))).length : ℚ) / 10 := by
  have hc := length_filter_ne_add_count (-200) gains
  rw [h] at hc
  have hcq : ((gains.filter (fun g => !(g == -200))).length : ℚ) +
      (gains.count (-200) : ℚ) = 10 := by exact_mod_cast hc
  simp only [evalBlockSR]
  have h10 : (10 : ℚ) - ((gains.count (-200) : ℕ) : ℚ) =
      ((gains.filter (fun g => !(g == -200))).length : ℚ) := by linarith
  rw [h10]

/-- C4 witness: on 10 synthetic returns of which exactly 3 equal `-200`,
the computed success rate is `0.7`. -/
theorem evaluation_block_success_rate_witness :
    gainsEx.length = 10 ∧ evalBlockSR gainsEx = 7 / 10 := by
  refine ⟨rfl, ?_⟩
  rw [evaluation_block_success_rate gainsEx rfl]
  have h : gainsEx.filter (fun g => !(g == -200)) = [1, 2, 3, 4, 5, 6, 7] := by
    norm_num [gainsEx, List.filter_cons, beq_eq_false_iff_ne, beq_self_eq_true]
  rw [h]
  norm_num

/-- C7: `get_max_action` returns an action index in `[0, actions)`; the
returned index attains the maximal action value and every smaller index has a
strictly smaller value (first-max tie-breaking); and when one action's value
strictly dominates all others, that action is returned. -/
theorem get_max_action_spec (sol : Solver S) (s : S) (hA : 0 < sol.actions) :
    sol.get_max_action s < sol.actions ∧
    (∀ j, j < sol.actions →
      sol.get_q_val (sol.get_features s) j ≤
        sol.get_q_val (sol.get_features s) (sol.get_max_action s)) ∧
    (∀ j, j < sol.get_max_action s →
      sol.get_q_val (sol.get_features s) j <
        sol.get_q_val (sol.get_features s) (sol.get_max_action s)) ∧
    (∀ a, a < sol.actions →
      (∀ b, b < sol.actions → b ≠ a →
        sol.get_q_val (sol.get_features s) b <
          sol.get_q_val (sol.get_features s) a) →
      sol.get_max_action s = a) := by
  have hlen : (sol.get_all_q_vals (sol.get_features s)).length = sol.actions :=
    length_get_all_q_vals sol (sol.get_features s)
  have hne : sol.get_all_q_vals (sol.get_features s) ≠ [] := by
    intro h
    rw [h] at hlen
    simp at hlen
    omega
  have hm : sol.get_max_action s =
      argmaxList (sol.get_all_q_vals (sol.get_features s)) := rfl
  have h1 : sol.get_max_action s < sol.actions := by
    rw [hm, ← hlen]
    exact argmaxList_lt_length _ hne
  have hqd : ∀ b, b < sol.actions →
      (sol.get_all_q_vals (sol.get_features s)).getD b 0 =
        sol.get_q_val (sol.get_features s) b :=
    fun b hb => getD_get_all_q_vals sol (sol.get_features s) b hb
  have hle : ∀ j, j < sol.actions →
      sol.get_q_val (sol.get_features s) j ≤
        sol.get_q_val (sol.get_features s) (sol.get_max_action s) := by
    intro j hj
    have h := getD_le_argmaxList (sol.get_all_q_vals (sol.get_features s)) j
      (by rw [hlen]; exact hj)
    rw [hqd j hj, ← hm, hqd _ h1] at h
    exact h
  refine ⟨h1, hle, ?_, ?_⟩
  · intro j hj
    have hjA : j < sol.actions := lt_trans hj h1
    have h := getD_lt_of_lt_argmaxList (sol.get_all_q_vals (sol.get_features s)) j
      (by rw [← hm]; exact hj)
    rw [hqd j hjA, ← hm, hqd _ h1] at h
    exact h
  · intro a ha hdom
    by_contra hne2
    have hlt := hdom (sol.get_max_action s) h1 hne2
    have hge := hle a ha
    linarith

/-- C7 witness: on the concrete solver `solEx` at state `true`, the greedy
action is a valid index, and it is action 1, whose value block strictly
dominates. -/
theorem get_max_action_spec_witness :
    solEx.get_max_action true < solEx.actions ∧ solEx.get_max_action true = 1 := by
  have h := get_max_action_spec solEx true (by decide)
  refine ⟨h.1, h.2.2.2 1 (by decide) ?_⟩
  intro b hb hbne
  have hb2 : b < 2 := hb
  interval_cases b
  · norm_num [solEx, Solver.get_q_val, dotList]
  · exact absurd rfl hbne

/-- C1: `update_theta` returns the TD error `δ = target - Q(state, action)`
where the target is `reward` on a terminal transition and
`reward + γ · Q(next_state, greedy(next_state))` otherwise, and replaces each
weight `θ[i]` by `θ[i] + α · δ · φ_sa[i]` with `φ_sa` the state-action
feature vector of `(state, action)`. -/
theorem update_theta_td (sol : Solver S) (s : S) (a : Nat) (r : ℚ) (s' : S)
    (d : Bool)
    (hlen : sol.theta.length = (sol.get_state_action_features s a).length) :
    (sol.update_theta s a r s' d).2 =
      (if d then r
       else r + sol.gamma *
         sol.get_q_val (sol.get_features s') (sol.get_max_action s')) -
        sol.get_q_val (sol.get_features s) a ∧
    (∀ i, i < sol.theta.length →
      ((sol.update_theta s a r s' d).1).theta.getD i 0 =
        sol.theta.getD i 0 +
          sol.learning_rate * (sol.update_theta s a r s' d).2 *
            (sol.get_state_action_features s a).getD i 0) := by
  constructor
  · rfl
  · intro i hi
    have h2 : i < (sol.get_state_action_features s a).length := by omega
    show (List.zipWith _ sol.theta (sol.get_state_action_features s a)).getD i 0 = _
    rw [getD_zipWith _ _ _ i hi h2]
    rfl

/-- C1 witness: on the concrete solver `solEx`, a terminal transition's TD
error is the reward minus the current estimate. -/
theorem update_theta_td_witness :
    (solEx.update_theta true 1 10 false true).2 =
      (if (true : Bool) then (10 : ℚ)
       else 10 + solEx.gamma *
         solEx.get_q_val (solEx.get_features false) (solEx.get_max_action false)) -
        solEx.get_q_val (solEx.get_features true) 1 :=
  (update_theta_td solEx true 1 10 false true (by decide)).1

/-- C2: a single `update_theta` call leaves the weight vector's length
unchanged, and leaves every weight block other than the taken action's block
unchanged entrywise. -/
theorem update_theta_frame (sol : Solver S) (s : S) (a : Nat) (r : ℚ) (s' : S)
    (d : Bool)
    (hF : (sol.get_features s).length = sol.number_of_features)
    (hlen : sol.theta.length = sol.actions * sol.number_of_features)
    (ha : a < sol.actions) :
    ((sol.update_theta s a r s' d).1).theta.length = sol.theta.length ∧
    (∀ b, b < sol.actions → b ≠ a →
      ∀ i, b * sol.number_of_features ≤ i →
        i < (b + 1) * sol.number_of_features →
        ((sol.update_theta s a r s' d).1).theta.getD i 0 = sol.theta.getD i 0) := by
  have hsal : (sol.get_state_action_features s a).length =
      sol.actions * sol.number_of_features := by
    rw [length_get_state_action_features, hF, Nat.mul_comm]
  constructor
  · show (List.zipWith _ sol.theta (sol.get_state_action_features s a)).length = _
    rw [List.length_zipWith, hsal, hlen, Nat.min_self]
  · intro b hb hbne i hbi hib
    have hbA : (b + 1) * sol.number_of_features ≤
        sol.actions * sol.number_of_features :=
      Nat.mul_le_mul_right _ (Nat.succ_le_of_lt hb)
    have hiA : i < sol.actions * sol.number_of_features := by omega
    have hi1 : i < sol.theta.length := by omega
    have hi2 : i < (sol.get_state_action_features s a).length := by omega
    show (List.zipWith _ sol.theta (sol.get_state_action_features s a)).getD i 0 = _
    rw [getD_zipWith _ _ _ i hi1 hi2]
    have hz : (sol.get_state_action_features s a).getD i 0 = 0 := by
      rw [getD_get_state_action_features sol s a i (by rw [hF, Nat.mul_comm]; omega),
        if_neg]
      rw [hF]
      rcases Nat.lt_or_ge b a with hba | hba
      · rintro ⟨hc1, -⟩
        have : (b + 1) * sol.number_of_features ≤ a * sol.number_of_features :=
          Nat.mul_le_mul_right _ hba
        omega
      · have hab : a < b := lt_of_le_of_ne hba (Ne.symm hbne)
        rintro ⟨-, hc2⟩
        have : (a + 1) * sol.number_of_features ≤ b * sol.number_of_features :=
          Nat.mul_le_mul_right _ hab
        omega
    rw [hz, mul_zero, add_zero]

/-- C2 witness: on the concrete solver `solEx` with taken action 1, the
length is unchanged and entry 0 (inside block 0) is unchanged. -/
theorem update_theta_frame_witness :
    ((solEx.update_theta true 1 10 false true).1).theta.length =
        solEx.theta.length ∧
      ((solEx.update_theta true 1 10 false true).1).theta.getD 0 0 =
        solEx.theta.getD 0 0 := by
  have h := update_theta_frame solEx true 1 10 false true
    (by decide) (by decide) (by decide)
  exact ⟨h.1, h.2 0 (by decide) (by decide) 0 (by decide) (by decide)⟩

/-- `update_theta` keeps `number_of_features`. -/
theorem update_theta_num_features (sol : Solver S) (s : S) (a : Nat) (r : ℚ)
    (s' : S) (d : Bool) :
    ((sol.update_theta s a r s' d).1).number_of_features =
      sol.number_of_features := rfl

/-- The weight vector written by `update_theta`, as a `zipWith`. -/
theorem update_theta_theta (sol : Solver S) (s : S) (a : Nat) (r : ℚ)
    (s' : S) (d : Bool) :
    ((sol.update_theta s a r s' d).1).theta =
      List.zipWith
        (fun t g => t + sol.learning_rate * (sol.update_theta s a r s' d).2 * g)
        sol.theta (sol.get_state_action_features s a) := rfl

/-- After `update_theta`, the estimate of the updated state-action pair has
moved by `α · δ · ⟨φ, φ⟩`. -/
theorem get_q_val_after_update (sol : Solver S) (s : S) (a : Nat) (r : ℚ)
    (s' : S) (d : Bool)
    (hF : (sol.get_features s).length = sol.number_of_features)
    (hlen : sol.theta.length = sol.actions * sol.number_of_features)
    (ha : a < sol.actions) :
    ((sol.update_theta s a r s' d).1).get_q_val (sol.get_features s) a =
      sol.get_q_val (sol.get_features s) a +
        sol.learning_rate * (sol.update_theta s a r s' d).2 *
          dotList (sol.get_features s) (sol.get_features s) := by
  have hφsa := slice_get_state_action_features sol s a ha hF
  have hstep : (a + 1) * sol.number_of_features ≤
      sol.actions * sol.number_of_features :=
    Nat.mul_le_mul_right _ (Nat.succ_le_of_lt ha)
  have hsplit : (a + 1) * sol.number_of_features =
      a * sol.number_of_features + sol.number_of_features := by ring
  have hul : ((sol.theta.drop (a * sol.number_of_features)).take
      sol.number_of_features).length = sol.number_of_features := by
    simp only [List.length_take, List.length_drop, hlen]
    omega
  simp only [Solver.get_q_val, update_theta_num_features, update_theta_theta]
  rw [List.drop_zipWith, List.take_zipWith, hφsa,
    dotList_zipWith_add_mul _ _ _ _ (by rw [hul, hF])]

/-- C8: with `α · δ ≠ 0` (and `α > 0`, nondegenerate features), a single
`update_theta` call strictly moves the estimate `Q(state, action)` toward the
target, in the direction of the sign of `δ`; and on a terminal transition the
target is exactly the (shaped) reward. -/
theorem update_moves_toward_target (sol : Solver S) (s : S) (a : Nat) (r : ℚ)
    (s' : S) (d : Bool)
    (hF : (sol.get_features s).length = sol.number_of_features)
    (hlen : sol.theta.length = sol.actions * sol.number_of_features)
    (ha : a < sol.actions)
    (hα : 0 < sol.learning_rate)
    (hφ : 0 < dotList (sol.get_features s) (sol.get_features s))
    (hαδ : sol.learning_rate * (sol.update_theta s a r s' d).2 ≠ 0) :
    (((sol.update_theta s a r s' d).1).get_q_val (sol.get_features s) a ≠
      sol.get_q_val (sol.get_features s) a) ∧
    (0 < (sol.update_theta s a r s' d).2 →
      sol.get_q_val (sol.get_features s) a <
        ((sol.update_theta s a r s' d).1).get_q_val (sol.get_features s) a) ∧
    ((sol.update_theta s a r s' d).2 < 0 →
      ((sol.update_theta s a r s' d).1).get_q_val (sol.get_features s) a <
        sol.get_q_val (sol.get_features s) a) ∧
    (sol.update_theta s a r s' true).2 =
      r - sol.get_q_val (sol.get_features s) a := by
  have hq := get_q_val_after_update sol s a r s' d hF hlen ha
  refine ⟨?_, ?_, ?_, rfl⟩
  · rw [hq]
    intro h
    have h0 : sol.learning_rate * (sol.update_theta s a r s' d).2 *
        dotList (sol.get_features s) (sol.get_features s) = 0 := by linarith
    rcases mul_eq_zero.1 h0 with h1 | h2
    · exact hαδ h1
    · exact absurd h2 (ne_of_gt hφ)
  · intro hpos
    rw [hq]
    have := mul_pos (mul_pos hα hpos) hφ
    linarith
  · intro hneg
    rw [hq]
    have := mul_neg_of_neg_of_pos (mul_neg_of_pos_of_neg hα hneg) hφ
    linarith

/-- C8 witness: on the concrete solver `solEx` and a terminal transition with
positive TD error, the estimate changes. -/
theorem update_moves_toward_target_witness :
    ((solEx.update_theta true 1 10 false true).1).get_q_val
        (solEx.get_features true) 1 ≠
      solEx.get_q_val (solEx.get_features true) 1 :=
  (update_moves_toward_target solEx true 1 10 false true
    (by decide) (by decide) (by decide)
    (by norm_num [solEx])
    (by norm_num [solEx, dotList])
    (by norm_num [solEx, Solver.update_theta, Solver.get_q_val, dotList])).1

/-! ## Properties of the episode loop -/

/-- Each loop iteration increments the step counter exactly once. -/
theorem epStep_step (env : S → Nat → S × ℚ × Bool) (is_train : Bool)
    (epsilon : Option ℚ) (unifs : Nat → ℚ) (picks : Nat → Nat) (st : EpState S) :
    (epStep env is_train epsilon unifs picks st).1.step = st.step + 1 := rfl

/-- Each loop iteration records exactly one action. -/
theorem epStep_actionsTaken (env : S → Nat → S × ℚ × Bool) (is_train : Bool)
    (epsilon : Option ℚ) (unifs : Nat → ℚ) (picks : Nat → Nat) (st : EpState S) :
    (epStep env is_train epsilon unifs picks st).1.actionsTaken =
      st.actionsTaken ++ [chooseAction epsilon unifs picks st] := rfl

/-- In evaluation mode a loop iteration changes neither the solver nor the
recorded TD errors. -/
theorem epStep_eval (env : S → Nat → S × ℚ × Bool) (epsilon : Option ℚ)
    (unifs : Nat → ℚ) (picks : Nat → Nat) (st : EpState S) :
    (epStep env false epsilon unifs picks st).1.sol = st.sol ∧
    (epStep env false epsilon unifs picks st).1.deltas = st.deltas :=
  ⟨rfl, rfl⟩

/-- In training mode a loop iteration records exactly one TD error. -/
theorem epStep_train_deltas (env : S → Nat → S × ℚ × Bool) (epsilon : Option ℚ)
    (unifs : Nat → ℚ) (picks : Nat → Nat) (st : EpState S) :
    (epStep env true epsilon unifs picks st).1.deltas.length =
      st.deltas.length + 1 := by
  simp [epStep]

/-- If the loop has strictly fewer remaining budget steps than fuel, it
reaches its own exit condition (`done or step == max_steps`). -/
theorem runLoop_isSome (env : S → Nat → S × ℚ × Bool) (is_train : Bool)
    (epsilon : Option ℚ) (max_steps : Nat) (unifs : Nat → ℚ)
    (picks : Nat → Nat) :
    ∀ (fuel : Nat) (st : EpState S), st.step < max_steps →
      max_steps - st.step ≤ fuel →
      (runLoop env is_train epsilon max_steps unifs picks fuel st).isSome = true := by
  intro fuel
  induction fuel with
  | zero => intro st h1 h2; omega
  | succ n ih =>
    intro st h1 h2
    rw [runLoop]
    split
    · simp
    · rename_i hcond
      have hs := epStep_step env is_train epsilon unifs picks st
      simp only [Bool.or_eq_true, beq_iff_eq, not_or] at hcond
      apply ih
      · rw [hs]; omega
      · rw [hs]
        rw [hs] at hcond
        omega

/-- When the loop returns, the step counter has grown by at most the fuel,
and the number of recorded actions has grown exactly with the step counter
(one environment step per iteration). -/
theorem runLoop_result (env : S → Nat → S × ℚ × Bool) (is_train : Bool)
    (epsilon : Option ℚ) (max_steps : Nat) (unifs : Nat → ℚ)
    (picks : Nat → Nat) :
    ∀ (fuel : Nat) (st r : EpState S),
      runLoop env is_train epsilon max_steps unifs picks fuel st = some r →
      r.step ≤ st.step + fuel ∧
      r.actionsTaken.length + st.step = st.actionsTaken.length + r.step := by
  intro fuel
  induction fuel with
  | zero => intro st r h; simp [runLoop] at h
  | succ n ih =>
    intro st r h
    rw [runLoop] at h
    have hs := epStep_step env is_train epsilon unifs picks st
    have hal : (epStep env is_train epsilon unifs picks st).1.actionsTaken.length =
        st.actionsTaken.length + 1 := by
      rw [epStep_actionsTaken]; simp
    split at h
    · cases h
      constructor
      · omega
      · omega
    · have := ih _ r h
      rw [hs] at this
      rw [hal] at this
      constructor
      · omega
      · omega

/-- Evaluation mode (`is_train = False`) never touches the solver weights nor
records TD errors. -/
theorem runLoop_eval_frame (env : S → Nat → S × ℚ × Bool) (epsilon : Option ℚ)
    (max_steps : Nat) (unifs : Nat → ℚ) (picks : Nat → Nat) :
    ∀ (fuel : Nat) (st r : EpState S),
      runLoop env false epsilon max_steps unifs picks fuel st = some r →
      r.deltas = st.deltas ∧ r.sol = st.sol := by
  intro fuel
  induction fuel with
  | zero => intro st r h; simp [runLoop] at h
  | succ n ih =>
    intro st r h
    rw [runLoop] at h
    split at h
    · cases h
      exact ⟨(epStep_eval env epsilon unifs picks st).2,
        (epStep_eval env epsilon unifs picks st).1⟩
    · have := ih _ r h
      rw [(epStep_eval env epsilon unifs picks st).2,
        (epStep_eval env epsilon unifs picks st).1] at this
      exact this

/-- Training mode records at least one TD error per completed episode. -/
theorem runLoop_train_deltas (env : S → Nat → S × ℚ × Bool) (epsilon : Option ℚ)
    (max_steps : Nat) (unifs : Nat → ℚ) (picks : Nat → Nat) :
    ∀ (fuel : Nat) (st r : EpState S),
      runLoop env true epsilon max_steps unifs picks fuel st = some r →
      st.deltas.length < r.deltas.length := by
  intro fuel
  induction fuel with
  | zero => intro st r h; simp [runLoop] at h
  | succ n ih =>
    intro st r h
    rw [runLoop] at h
    have hd := epStep_train_deltas env epsilon unifs picks st
    split at h
    · cases h; omega
    · have := ih _ r h
      omega

/-- C10: with `max_steps ≥ 1`, `run_episode` terminates after at most
`max_steps` environment steps: the loop's own exit condition fires within the
step budget (so fuel `max_steps` suffices), the final step counter is at most
`max_steps`, and the counter counts exactly one environment step (one chosen
action) per iteration.  The bound needs `max_steps ≥ 1` because the exit
test compares the incremented counter with `max_steps` by exact equality. -/
theorem run_episode_terminates (env : S → Nat → S × ℚ × Bool) (sol : Solver S)
    (is_train : Bool) (epsilon : Option ℚ) (max_steps : Nat) (s0 : S)
    (unifs : Nat → ℚ) (picks : Nat → Nat) (h : 1 ≤ max_steps) :
    (run_episode env sol is_train epsilon max_steps s0 unifs picks).isSome = true ∧
    (∀ st, runLoop env is_train epsilon max_steps unifs picks max_steps
        { sol := sol, state := s0, episode_gain := 0, deltas := [],
          actionsTaken := [], step := 0 } = some st →
      st.step ≤ max_steps ∧ st.actionsTaken.length = st.step) := by
  constructor
  · unfold run_episode
    rw [Option.isSome_map']
    exact runLoop_isSome env is_train epsilon max_steps unifs picks max_steps
      _ (by simpa using h) (by simp)
  · intro st hst
    have hr := runLoop_result env is_train epsilon max_steps unifs picks
      max_steps _ st hst
    simp at hr
    omega

/-- C10 witness: a concrete evaluation episode with `max_steps = 5`
terminates. -/
theorem run_episode_terminates_witness :
    (run_episode envEx solEx false none 5 false unifs0 picks0).isSome = true :=
  (run_episode_terminates envEx solEx false none 5 false unifs0 picks0
    (by decide)).1

/-- C6: when the loop returns, `run_episode` returns the pair
`(episode_gain, np.mean(deltas))`: in evaluation mode no TD errors were
recorded, so the second component is `none` (numpy's NaN on an empty mean);
in training mode at least one TD error was recorded and the second component
is the mean of the recorded TD errors. -/
theorem run_episode_return_shape (env : S → Nat → S × ℚ × Bool)
    (sol : Solver S) (epsilon : Option ℚ) (max_steps : Nat) (s0 : S)
    (unifs : Nat → ℚ) (picks : Nat → Nat) (st : EpState S) :
    (runLoop env false epsilon max_steps unifs picks max_steps
        { sol := sol, state := s0, episode_gain := 0, deltas := [],
          actionsTaken := [], step := 0 } = some st →
      run_episode env sol false epsilon max_steps s0 unifs picks =
        some (st.episode_gain, none)) ∧
    (runLoop env true epsilon max_steps unifs picks max_steps
        { sol := sol, state := s0, episode_gain := 0, deltas := [],
          actionsTaken := [], step := 0 } = some st →
      run_episode env sol true epsilon max_steps s0 unifs picks =
        some (st.episode_gain,
          some (st.deltas.sum / (st.deltas.length : ℚ)))) := by
  constructor
  · intro h
    have hd := (runLoop_eval_frame env epsilon max_steps unifs picks
      max_steps _ st h).1
    simp only at hd
    unfold run_episode
    rw [h]
    simp [meanOpt, hd]
  · intro h
    have hd := runLoop_train_deltas env epsilon max_steps unifs picks
      max_steps _ st h
    have hne : st.deltas ≠ [] := by
      intro heq
      rw [heq] at hd
      simp at hd
    unfold run_episode
    rw [h]
    simp [meanOpt, hne]

/-- C6 witness: concrete evaluation and training episodes of `solEx` in
`envEx`, started at state `false`: the evaluation episode returns the gain
`-2` with no TD-error summary, the training episode returns the gain `-2`
with the mean of its two recorded TD errors. -/
theorem run_episode_return_shape_witness :
    run_episode envEx solEx false none 5 false unifs0 picks0 =
      some (-2, none) ∧
    run_episode envEx solEx true none 5 false unifs0 picks0 =
      some (-2, some (-27 / 5)) := by
  constructor
  · have hF : runLoop envEx false none 5 unifs0 picks0 5
        { sol := solEx, state := false, episode_gain := 0, deltas := [],
          actionsTaken := [], step := 0 } = some
        { sol := solEx, state := false, episode_gain := -2, deltas := [],
          actionsTaken := [1, 1], step := 2 } := by
      norm_num [runLoop, epStep, chooseAction, envEx, solEx,
        Solver.get_max_action, Solver.get_all_q_vals, Solver.get_q_val,
        dotList, argmaxList, modify_reward, List.range_succ]
    exact (run_episode_return_shape envEx solEx none 5 false unifs0 picks0 _).1 hF
  · have hT : runLoop envEx true none 5 unifs0 picks0 5
        { sol := solEx, state := false, episode_gain := 0, deltas := [],
          actionsTaken := [], step := 0 } = some
        { sol := { solEx with theta := [1, 2, 157/100, 327/100] },
          state := false, episode_gain := -2, deltas := [-7/2, -73/10],
          actionsTaken := [1, 1], step := 2 } := by
      norm_num [runLoop, epStep, chooseAction, envEx, solEx,
        Solver.get_max_action, Solver.get_all_q_vals, Solver.get_q_val,
        Solver.update_theta, Solver.get_state_action_features, dotList,
        argmaxList, modify_reward, List.range_succ]
    have := (run_episode_return_shape envEx solEx none 5 false unifs0 picks0 _).2 hT
    rw [this]
    norm_num

/-- The loop body's action choice does not depend on the RNG streams when
`epsilon` is `None` or `0` (with uniform draws in `[0, 1)`). -/
theorem chooseAction_rng_independent (epsilon : Option ℚ) (u1 u2 : Nat → ℚ)
    (p1 p2 : Nat → Nat) (st : EpState S)
    (heps : epsilon = none ∨
      (epsilon = some 0 ∧ (∀ n, 0 ≤ u1 n) ∧ (∀ n, 0 ≤ u2 n))) :
    chooseAction epsilon u1 p1 st = chooseAction epsilon u2 p2 st := by
  rcases heps with h | ⟨h, h1, h2⟩
  · subst h; rfl
  · subst h
    simp only [chooseAction]
    rw [if_neg (not_lt.2 (h1 st.step)), if_neg (not_lt.2 (h2 st.step))]

/-- The evaluation-mode loop is a deterministic function of the start locals
when `epsilon` is `None` or `0`. -/
theorem runLoop_rng_independent (env : S → Nat → S × ℚ × Bool)
    (epsilon : Option ℚ) (max_steps : Nat) (u1 u2 : Nat → ℚ)
    (p1 p2 : Nat → Nat)
    (heps : epsilon = none ∨
      (epsilon = some 0 ∧ (∀ n, 0 ≤ u1 n) ∧ (∀ n, 0 ≤ u2 n))) :
    ∀ (fuel : Nat) (st : EpState S),
      runLoop env false epsilon max_steps u1 p1 fuel st =
        runLoop env false epsilon max_steps u2 p2 fuel st := by
  have hstep : ∀ st : EpState S,
      epStep env false epsilon u1 p1 st = epStep env false epsilon u2 p2 st := by
    intro st
    simp only [epStep, chooseAction_rng_independent epsilon u1 u2 p1 p2 st heps]
  intro fuel
  induction fuel with
  | zero => intro st; rfl
  | succ n ih =>
    intro st
    rw [runLoop, runLoop, hstep st, ih]

/-- C9: with exploration rate 0 or not supplied, an evaluation episode from a
fixed start state against a deterministic environment does not depend on the
RNG streams: the full final loop locals (including the recorded action
sequence) and the returned accumulated return are identical across two runs
with different random draws. -/
theorem eval_episode_deterministic (env : S → Nat → S × ℚ × Bool)
    (sol : Solver S) (epsilon : Option ℚ) (max_steps : Nat) (s0 : S)
    (u1 u2 : Nat → ℚ) (p1 p2 : Nat → Nat)
    (heps : epsilon = none ∨
      (epsilon = some 0 ∧ (∀ n, 0 ≤ u1 n) ∧ (∀ n, 0 ≤ u2 n))) :
    runLoop env false epsilon max_steps u1 p1 max_steps
        { sol := sol, state := s0, episode_gain := 0, deltas := [],
          actionsTaken := [], step := 0 } =
      runLoop env false epsilon max_steps u2 p2 max_steps
        { sol := sol, state := s0, episode_gain := 0, deltas := [],
          actionsTaken := [], step := 0 } ∧
    run_episode env sol false epsilon max_steps s0 u1 p1 =
      run_episode env sol false epsilon max_steps s0 u2 p2 := by
  have h := runLoop_rng_independent env epsilon max_steps u1 u2 p1 p2 heps
  refine ⟨h max_steps _, ?_⟩
  unfold run_episode
  rw [h max_steps _]

/-- C9 witness: two concrete evaluation episodes with different RNG streams
return the same result. -/
theorem eval_episode_deterministic_witness :
    run_episode envEx solEx false none 5 false unifs0 picks0 =
      run_episode envEx solEx false none 5 false unifs1 picks1 :=
  (eval_episode_deterministic envEx solEx none 5 false unifs0 unifs1
    picks0 picks1 (Or.inl rfl)).2

/-- C5: environment-terminal and step-budget-reached are independent: when
the step counter reaches `max_steps` on a step whose environment `done` flag
is `False`, the loop exits (returns `some`), but the update performed on that
final step used the non-terminal, bootstrapped target — the recorded TD
error contains the `γ · Q(next_state, greedy(next_state))` term. -/
theorem budget_exit_still_bootstraps (env : S → Nat → S × ℚ × Bool)
    (st : EpState S) (fuel max_steps : Nat) (unifs : Nat → ℚ)
    (picks : Nat → Nat) (s' : S) (r1 : ℚ)
    (henv : env st.state (st.sol.get_max_action st.state) = (s', r1, false))
    (hstep : st.step + 1 = max_steps) :
    ∃ stF, runLoop env true none max_steps unifs picks (fuel + 1) st =
        some stF ∧
      stF.step = max_steps ∧
      stF.sol = (st.sol.update_theta st.state (st.sol.get_max_action st.state)
          (modify_reward r1) s' false).1 ∧
      stF.deltas = st.deltas ++
        [modify_reward r1 + st.sol.gamma *
            st.sol.get_q_val (st.sol.get_features s')
              (st.sol.get_max_action s') -
          st.sol.get_q_val (st.sol.get_features st.state)
            (st.sol.get_max_action st.state)] := by
  have hd : (epStep env true none unifs picks st).2 = false := by
    simp [epStep, chooseAction, henv]
  have hs := epStep_step env true none unifs picks st
  refine ⟨(epStep env true none unifs picks st).1, ?_, ?_, ?_, ?_⟩
  · rw [runLoop, if_pos]
    rw [hd, hs, hstep]
    simp
  · rw [hs, hstep]
  · simp [epStep, chooseAction, henv]
  · simp [epStep, chooseAction, henv, Solver.update_theta]

/-- C5 witness: in a never-terminal environment with `max_steps = 1`, the
first step exhausts the budget; the loop exits and the recorded TD error is
the bootstrapped one. -/
theorem budget_exit_still_bootstraps_witness :
    ∃ stF, runLoop envFree true none 1 unifs0 picks0 1 stEx = some stF ∧
      stF.step = 1 ∧
      stF.sol = (solEx.update_theta true (solEx.get_max_action true)
          (modify_reward 0) true false).1 ∧
      stF.deltas = ([] : List ℚ) ++
        [modify_reward 0 + solEx.gamma *
            solEx.get_q_val (solEx.get_features true)
              (solEx.get_max_action true) -
          solEx.get_q_val (solEx.get_features true)
            (solEx.get_max_action true)] :=
  budget_exit_still_bootstraps envFree stEx 0 1 unifs0 picks0 true 0 rfl rfl

end QLearnMC
